import Mathlib

/-!
Verification development for the `site_scraper.py` crawler.

The Python source is shallowly embedded below:
* `urlparse` / `urljoin` model `urllib.parse.urlparse` / `urljoin` (control-character
  stripping and IPv6 bracket validation of CPython are omitted; no claim involves them);
* `sanitize_filename`, `save_page`, `filter_links`, `scrape_page`, `process_urls` and
  `crawl_website` are direct translations of the functions of the same names;
* the nondeterministic completion order of `ray.wait` is modelled by a `pick` scheduler
  choosing, at each wait point, which outstanding task finishes;
* the rate limiter's real-time behaviour is modelled with rational-valued clocks.
-/

/-- Characters allowed in a URL scheme, mirroring the scheme character set of the
Python `urllib.parse` module (ASCII letters, digits, and the marks `+`, `-`, `.`). -/
def isSchemeChar (c : Char) : Bool :=
  c.isAlpha || c.isDigit || c = '+' || c = '-' || c = '.'

/-- Split a character list at the first occurrence of `c`
(Python `str.split(c, 1)` / `str.find`); `none` when `c` is absent. -/
def splitFirst (c : Char) : List Char → Option (List Char × List Char)
  | [] => none
  | x :: xs =>
    if x = c then some ([], xs)
    else
      match splitFirst c xs with
      | none => none
      | some (a, b) => some (x :: a, b)

/-- Split a character list at the last occurrence of `c` (Python `str.rfind`). -/
def splitLast (c : Char) : List Char → Option (List Char × List Char)
  | [] => none
  | x :: xs =>
    match splitLast c xs with
    | some (a, b) => some (x :: a, b)
    | none => if x = c then some ([], xs) else none

/-- Python `str.split(c)` on character lists: always returns at least one piece. -/
def splitOnChar (c : Char) : List Char → List (List Char)
  | [] => [[]]
  | x :: xs =>
    let r := splitOnChar c xs
    if x = c then [] :: r
    else
      match r with
      | [] => [[x]]
      | h :: t => (x :: h) :: t

/-- Take the netloc portion after a leading `//`: characters up to the first
delimiter among `/`, `?`, `#` (Python `_splitnetloc`). -/
def splitNetlocChars : List Char → List Char × List Char
  | [] => ([], [])
  | c :: cs =>
    if c = '/' ∨ c = '?' ∨ c = '#' then ([], c :: cs)
    else
      let (a, b) := splitNetlocChars cs
      (c :: a, b)

/-- Result of `urllib.parse.urlparse`: the six components of a URL. -/
structure ParseResult where
  scheme : String
  netloc : String
  path : String
  params : String
  query : String
  fragment : String
deriving DecidableEq

/-- Core of `urllib.parse.urlsplit` on character lists, returning
`(scheme, netloc, path, query, fragment)`; `defScheme` is the default scheme. -/
def urlsplitCore (cs : List Char) (defScheme : List Char) :
    List Char × List Char × List Char × List Char × List Char :=
  let p1 :=
    match splitFirst ':' cs with
    | none => (defScheme, cs)
    | some (pre, post) =>
      if !pre.isEmpty && ((pre.head?.map Char.isAlpha).getD false)
          && pre.all isSchemeChar then
        (pre.map Char.toLower, post)
      else (defScheme, cs)
  let scheme := p1.1
  let p2 :=
    match p1.2 with
    | '/' :: '/' :: r => splitNetlocChars r
    | other => ([], other)
  let netloc := p2.1
  let p3 :=
    match splitFirst '#' p2.2 with
    | some (a, b) => (a, b)
    | none => (p2.2, [])
  let p4 :=
    match splitFirst '?' p3.1 with
    | some (a, b) => (a, b)
    | none => (p3.1, [])
  (scheme, netloc, p4.1, p4.2, p3.2)

/-- The schemes for which `urlparse` splits parameters from the last path
segment (`uses_params` in `urllib.parse`). -/
def usesParamsSchemes : List String :=
  ["", "ftp", "hdl", "prospero", "http", "imap", "https", "shttp", "rtsp",
   "rtspu", "sip", "sips", "mms", "sftp", "tel"]

/-- Python `urllib.parse._splitparams`: split `;params` out of the last path segment. -/
def splitParamsChars (pathcs : List Char) : List Char × List Char :=
  match splitLast '/' pathcs with
  | some (before, after) =>
    match splitFirst ';' after with
    | some (a, b) => (before ++ '/' :: a, b)
    | none => (pathcs, [])
  | none =>
    match splitFirst ';' pathcs with
    | some (a, b) => (a, b)
    | none => (pathcs, [])

/-- `urllib.parse.urlparse` with an explicit default scheme. -/
def urlparseWith (url : String) (defScheme : String) : ParseResult :=
  let r := urlsplitCore url.data defScheme.data
  let scheme : String := ⟨r.1⟩
  let netloc : String := ⟨r.2.1⟩
  let path0 : List Char := r.2.2.1
  let query : String := ⟨r.2.2.2.1⟩
  let fragment : String := ⟨r.2.2.2.2⟩
  if scheme ∈ usesParamsSchemes ∧ ';' ∈ path0 then
    let pp := splitParamsChars path0
    ⟨scheme, netloc, ⟨pp.1⟩, ⟨pp.2⟩, query, fragment⟩
  else
    ⟨scheme, netloc, ⟨path0⟩, "", query, fragment⟩

/-- `urllib.parse.urlparse` with the empty default scheme. -/
def urlparse (url : String) : ParseResult := urlparseWith url ""

/-- Does the string start with a `/` character? -/
def startsWithSlash (s : String) : Bool := s.data.head? = some '/'

/-- Does the string end with a `/` character? -/
def endsWithSlash (s : String) : Bool := s.data.getLast? = some '/'

/-- `urllib.parse.urlunsplit`. -/
def urlunsplit (scheme netloc path query fragment : String) : String :=
  let u :=
    if netloc ≠ "" ∨ (path ≠ "" ∧ path.data.take 2 = ['/', '/']) then
      let p := if path ≠ "" ∧ ¬ startsWithSlash path then "/" ++ path else path
      "//" ++ netloc ++ p
    else path
  let u := if scheme ≠ "" then scheme ++ ":" ++ u else u
  let u := if query ≠ "" then u ++ "?" ++ query else u
  if fragment ≠ "" then u ++ "#" ++ fragment else u

/-- `urllib.parse.urlunparse`. -/
def urlunparse (pr : ParseResult) : String :=
  let pathWith := if pr.params ≠ "" then pr.path ++ ";" ++ pr.params else pr.path
  urlunsplit pr.scheme pr.netloc pathWith pr.query pr.fragment

/-- `uses_relative` of `urllib.parse`. -/
def usesRelativeSchemes : List String :=
  ["", "ftp", "http", "gopher", "nntp", "imap", "wais", "file", "https", "shttp",
   "mms", "prospero", "rtsp", "rtspu", "sftp", "svn", "svn+ssh", "ws", "wss"]

/-- `uses_netloc` of `urllib.parse`. -/
def usesNetlocSchemes : List String :=
  ["", "ftp", "http", "gopher", "nntp", "telnet", "imap", "wais", "file", "mms",
   "https", "shttp", "snews", "prospero", "rtsp", "rtspu", "rsync", "svn",
   "svn+ssh", "sftp", "nfs", "git", "git+ssh", "ws", "wss", "itms-services"]

/-- RFC 3986 dot-segment removal as implemented in `urljoin`
(`..` pops, `.` is dropped, a pop of an empty stack is ignored). -/
def resolveSegments (segments : List String) : List String :=
  segments.foldl
    (fun acc seg =>
      if seg = ".." then acc.dropLast
      else if seg = "." then acc
      else acc ++ [seg]) []

/-- Python `str.split('/')` at the string level. -/
def splitSlashes (s : String) : List String :=
  (splitOnChar '/' s.data).map (fun l => ⟨l⟩)

/-- Join a list of strings with `/` separators (Python `'/'.join`). -/
def joinSlash : List String → String
  | [] => ""
  | [s] => s
  | s :: rest => s ++ "/" ++ joinSlash rest

/-- The slice assignment `segments[1:-1] = filter(None, segments[1:-1])` of
`urljoin`: drop empty strings from all but the first and last positions. -/
def filterMiddle : List String → List String
  | [] => []
  | [x] => [x]
  | x :: y :: ys =>
    x :: (((y :: ys).dropLast.filter (fun s => s ≠ "")) ++ [(y :: ys).getLastD ""])

/-- `urllib.parse.urljoin`. -/
def urljoin (base url : String) : String :=
  if base = "" then url
  else if url = "" then base
  else
    let b := urlparseWith base ""
    let u := urlparseWith url b.scheme
    if u.scheme ≠ b.scheme ∨ u.scheme ∉ usesRelativeSchemes then url
    else if u.scheme ∈ usesNetlocSchemes ∧ u.netloc ≠ "" then urlunparse u
    else
      let netloc := if u.scheme ∈ usesNetlocSchemes then b.netloc else u.netloc
      if u.path = "" ∧ u.params = "" then
        let query := if u.query = "" then b.query else u.query
        urlunparse ⟨u.scheme, netloc, b.path, b.params, query, u.fragment⟩
      else
        let baseParts0 := splitSlashes b.path
        let baseParts :=
          if baseParts0.getLast? ≠ some "" then baseParts0.dropLast else baseParts0
        let segments :=
          if startsWithSlash u.path then splitSlashes u.path
          else filterMiddle (baseParts ++ splitSlashes u.path)
        let resolved0 := resolveSegments segments
        let resolved :=
          if segments.getLast? = some "." ∨ segments.getLast? = some ".." then
            resolved0 ++ [""]
          else resolved0
        let rp := joinSlash resolved
        let rp := if rp = "" then "/" else rp
        urlunparse ⟨u.scheme, netloc, rp, u.params, u.query, u.fragment⟩

/-- `sanitize_filename` from the source: replace each of the characters
`\ / * ? : " < > |` with an underscore (what `re.sub` with that character
class does, character by character). -/
def sanitizeChar (c : Char) : Char :=
  if c = '\\' ∨ c = '/' ∨ c = '*' ∨ c = '?' ∨ c = ':' ∨ c = '"' ∨ c = '<'
      ∨ c = '>' ∨ c = '|' then '_'
  else c

/-- `sanitize_filename(name)` of the source. -/
def sanitize_filename (name : String) : String := ⟨name.data.map sanitizeChar⟩

/-- One step of `posixpath.join`: `b` replaces the path when absolute, is
appended directly after a trailing `/` (or to an empty path), and is otherwise
joined with a `/` separator. -/
def ospathJoin2 (path b : String) : String :=
  if startsWithSlash b then b
  else if path = "" ∨ endsWithSlash path then path ++ b
  else path ++ "/" ++ b

/-- `os.path.join(a, *ps)` (POSIX flavour), as used by `save_page`. -/
def ospathJoin (a : String) (ps : List String) : String := ps.foldl ospathJoin2 a

/-- `save_page(url, markdown_content, output_dir)` of the source, modelled as the
single filesystem write it performs: the returned pair is
(file path written, file content written). -/
def save_page (url markdown_content output_dir : String) : String × String :=
  let parsed := urlparse url
  let host := sanitize_filename parsed.netloc
  let path_parts :=
    ((splitSlashes parsed.path).filter (fun part => part ≠ "")).map sanitize_filename
  let final_endpoint := path_parts.getLastD host
  let dir_parts := path_parts.dropLast
  let directory := ospathJoin output_dir (host :: dir_parts)
  let filename :=
    if parsed.fragment ≠ "" then
      final_endpoint ++ "_" ++ sanitize_filename parsed.fragment ++ ".md"
    else final_endpoint ++ ".md"
  (ospathJoin2 directory filename, "# " ++ url ++ "\n\n" ++ markdown_content)

/-- The saved-file layout as the specification words it: for host `H`,
non-empty `/`-split path components `P` and fragment `F`, the directory is
`outputDir/H/P[0..len-2]` and the base filename `P[last]` (`H` when `P` is
empty), every segment sanitized; the filename is `base.md`, or `base_F.md`
when a fragment is present; the content is `# <URL>`, a blank line, and the
markdown. -/
def save_page_spec (url markdown_content output_dir : String) : String × String :=
  let parsed := urlparse url
  let H := sanitize_filename parsed.netloc
  let P :=
    ((splitSlashes parsed.path).filter (fun part => part ≠ "")).map sanitize_filename
  let base := P.getLastD H
  let dir := joinSlash (output_dir :: H :: P.dropLast)
  let fname :=
    if parsed.fragment ≠ "" then base ++ "_" ++ sanitize_filename parsed.fragment ++ ".md"
    else base ++ ".md"
  (dir ++ "/" ++ fname, "# " ++ url ++ "\n\n" ++ markdown_content)

/-- `filter_links(links, base_url)` of the source: resolve every link against
`base_url` and keep exactly those whose host equals `base_url`'s host. -/
def filter_links (links : List String) (base_url : String) : List String :=
  let base_domain := (urlparse base_url).netloc
  (links.map (fun link => urljoin base_url link)).filter
    (fun absolute => (urlparse absolute).netloc == base_domain)

/-- The dictionary returned by `scrape_page`. -/
structure PageResult where
  url : String
  markdown : String
  links : List String
deriving DecidableEq

/-- The external collaborators of the fetch worker: the HTTP fetch (fails with
an exception on timeout, non-2xx status — `raise_for_status` — or network
error), the HTML-to-Markdown conversion (may fail on malformed input), and
the hyperlink extraction (BeautifulSoup, total). -/
structure Collaborators where
  httpGet : String → Except String String
  render : String → Except String String
  extractLinks : String → List String

/-- `scrape_page(url)` of the source: the whole body runs inside one
`try/except`; any failure yields `{url, markdown: '', links: []}`, reported
only by a log line. The rate-limiter interaction affects timing only. -/
def scrape_page (C : Collaborators) (url : String) : PageResult :=
  match C.httpGet url with
  | .error _ => ⟨url, "", []⟩
  | .ok html =>
    match C.render html with
    | .error _ => ⟨url, "", []⟩
    | .ok markdown_content => ⟨url, markdown_content, C.extractLinks html⟩

/-- The markdown field `scrape_page` produces for a URL. -/
def pageMd (C : Collaborators) (url : String) : String :=
  match C.httpGet url with
  | .error _ => ""
  | .ok html =>
    match C.render html with
    | .error _ => ""
    | .ok markdown_content => markdown_content

/-- The links field `scrape_page` produces for a URL. -/
def pageLinks (C : Collaborators) (url : String) : List String :=
  match C.httpGet url with
  | .error _ => []
  | .ok html =>
    match C.render html with
    | .error _ => []
    | .ok _ => C.extractLinks html

/-- State of the `RateLimiter` actor: the configured delay and the
`last_request` timestamp (`0.0` until the first acquisition). Time is
modelled by rationals. -/
structure RLState where
  delay : ℚ
  last_request : ℚ
deriving DecidableEq

/-- A fresh `RateLimiter(delay)`. -/
def initRL (delay : ℚ) : RLState := ⟨delay, 0⟩

/-- `RateLimiter.acquire`, called at time `now`: returns the time at which the
call returns (after the `time.sleep`, if any) and the updated state. The
first call (`last_request == 0.0`) returns immediately; otherwise the caller
sleeps until `delay` seconds have passed since `last_request`. -/
def acquire (st : RLState) (now : ℚ) : ℚ × RLState :=
  if st.last_request = 0 then (now, ⟨st.delay, now⟩)
  else
    let elapsed := now - st.last_request
    if elapsed < st.delay then
      let grantTime := now + (st.delay - elapsed)
      (grantTime, ⟨st.delay, grantTime⟩)
    else (now, ⟨st.delay, now⟩)

/-- The serialized sequence of acquisitions through one `RateLimiter` actor:
`t n` is the time the `n`-th `acquire` call starts executing, and
`(grants d t n).1` the time it returns (the grant). -/
def grants (d : ℚ) (t : ℕ → ℚ) : ℕ → ℚ × RLState
  | 0 => acquire (initRL d) (t 0)
  | n + 1 => acquire (grants d t n).2 (t (n + 1))

/-- Worker loop of `process_urls`: `tasks` is the pool of outstanding task
URLs, `results` the collected results. When the pool reaches
`max_concurrency`, `ray.wait(tasks, num_returns=1)` removes one completed
task — nondeterministically; modelled by the `pick` scheduler, reduced
modulo the pool size so any choice is in range — and its result is
collected. After the launch loop the remaining pool is drained in order. -/
def processUrlsGo (C : Collaborators) (maxc : Nat) (pick : Nat → Nat) :
    List String → Nat → List String → List PageResult → List PageResult
  | [], _, tasks, results => results ++ tasks.map (scrape_page C)
  | u :: rest, step, tasks, results =>
    let tasks1 := tasks ++ [u]
    if maxc ≤ tasks1.length then
      let i := pick step % tasks1.length
      processUrlsGo C maxc pick rest (step + 1) (tasks1.eraseIdx i)
        (results ++ [scrape_page C (tasks1.getD i "")])
    else processUrlsGo C maxc pick rest (step + 1) tasks1 results

/-- `process_urls(urls, rate_limiter, max_concurrency)` of the source. -/
def process_urls (C : Collaborators) (maxc : Nat) (pick : Nat → Nat)
    (urls : List String) : List PageResult :=
  processUrlsGo C maxc pick urls 0 [] []

/-- `processUrlsGo` instrumented to also record the pool size at each launch
point (the momentary maximum of outstanding tasks within that iteration);
its first component is exactly `processUrlsGo`. -/
def processUrlsGoT (C : Collaborators) (maxc : Nat) (pick : Nat → Nat) :
    List String → Nat → List String → List PageResult → List PageResult × List Nat
  | [], _, tasks, results => (results ++ tasks.map (scrape_page C), [])
  | u :: rest, step, tasks, results =>
    let tasks1 := tasks ++ [u]
    if maxc ≤ tasks1.length then
      let i := pick step % tasks1.length
      let r := processUrlsGoT C maxc pick rest (step + 1) (tasks1.eraseIdx i)
        (results ++ [scrape_page C (tasks1.getD i "")])
      (r.1, tasks1.length :: r.2)
    else
      let r := processUrlsGoT C maxc pick rest (step + 1) tasks1 results
      (r.1, tasks1.length :: r.2)

/-- A trivial set of collaborators (every fetch succeeds with an empty page). -/
def trivColl : Collaborators :=
  ⟨fun _ => .ok "", fun _ => .ok "", fun _ => []⟩

/-- State of `crawl_website`'s level loop, together with the write events
(`saves`, as (url, (path, content)) triples in the order `save_page` is
called) and the URLs handed to the dispatcher (`fetched`, in dispatch order). -/
structure CrawlState where
  visited : List String
  currentLevel : List String
  depth : Nat
  saves : List (String × String × String)
  fetched : List String
deriving DecidableEq

/-- The inner `for link in new_links` loop of `crawl_website`: append each
link that is in neither the visited set, the current level, nor the
next level being built. -/
def addLinks (vis cl : List String) : List String → List String → List String
  | next, [] => next
  | next, l :: ls =>
    if l ∉ vis ∧ l ∉ cl ∧ l ∉ next then addLinks vis cl (next ++ [l]) ls
    else addLinks vis cl next ls

/-- The `for result in results` loop of `crawl_website`: skip already-visited
URLs, otherwise mark visited, save the page, and extend the next level with
the page's filtered links. Returns (visited, next_level, saves). -/
def procResults (base out : String) (cl : List String) :
    List PageResult → List String → List String → List (String × String × String) →
      List String × List String × List (String × String × String)
  | [], vis, next, saves => (vis, next, saves)
  | r :: rest, vis, next, saves =>
    if r.url ∈ vis then procResults base out cl rest vis next saves
    else
      procResults base out cl rest (vis ++ [r.url])
        (addLinks (vis ++ [r.url]) cl next (filter_links r.links base))
        (saves ++ [(r.url, save_page r.url r.markdown out)])

/-- One iteration of `crawl_website`'s `while` loop: filter the level to
unvisited URLs, dispatch them, process the results, advance the depth. -/
def levelStep (C : Collaborators) (base out : String) (maxc : Nat)
    (pick : Nat → Nat → Nat) (st : CrawlState) : CrawlState :=
  let uts := st.currentLevel.filter (fun u => u ∉ st.visited)
  let results := process_urls C maxc (pick st.depth) uts
  let o := procResults base out st.currentLevel results st.visited [] st.saves
  ⟨o.1, o.2.1, st.depth + 1, o.2.2, st.fetched ++ uts⟩

/-- The `while current_level and depth <= max_depth` loop. The fuel counts the
remaining iterations allowed by the depth bound: starting from depth `0` with
fuel `max_depth + 1`, the loop condition `depth <= max_depth` is exactly
`fuel > 0`. -/
def crawlLoop (C : Collaborators) (base out : String) (maxc : Nat)
    (pick : Nat → Nat → Nat) : Nat → CrawlState → CrawlState
  | 0, st => st
  | fuel + 1, st =>
    if st.currentLevel = [] then st
    else crawlLoop C base out maxc pick fuel (levelStep C base out maxc pick st)

/-- The initial crawl state: empty visited set, the seed as the only frontier
entry, depth `0`. -/
def initState (seed : String) : CrawlState := ⟨[], [seed], 0, [], []⟩

/-- `crawl_website(base_url, output_dir, max_depth, rate_limiter,
max_concurrency)` of the source. The rate limiter only delays fetches, so it
does not appear in the functional model; `pick` abstracts the per-level
completion order chosen by `ray.wait`. -/
def crawl_website (C : Collaborators) (base_url output_dir : String)
    (max_depth maxc : Nat) (pick : Nat → Nat → Nat) : CrawlState :=
  crawlLoop C base_url output_dir maxc pick (max_depth + 1) (initState base_url)

/-- The save event `crawl_website` emits for URL `u`. -/
def saveEv (C : Collaborators) (out u : String) : String × String × String :=
  (u, save_page u (pageMd C u) out)

/-- Crawl-loop invariant: no duplicates in the visited list or frontier, the
frontier is disjoint from the visited set, the save events are exactly one
per visited URL in insertion order, and the dispatched URLs are a
permutation of the visited ones. -/
def GoodState (C : Collaborators) (out : String) (st : CrawlState) : Prop :=
  st.visited.Nodup ∧ st.currentLevel.Nodup ∧ (∀ u ∈ st.currentLevel, u ∉ st.visited)
  ∧ st.saves = st.visited.map (saveEv C out) ∧ st.fetched.Perm st.visited

/-- Every frontier entry is either the seed, or a link extracted from some
page, resolved with `urljoin` against the seed URL (never against the page
it was found on) and lying on the seed's host. -/
def FrontierOK (C : Collaborators) (base : String) (st : CrawlState) : Prop :=
  ∀ u ∈ st.currentLevel, u = base
    ∨ ∃ pg lk, lk ∈ pageLinks C pg ∧ u = urljoin base lk
        ∧ (urlparse u).netloc = (urlparse base).netloc

/-- A well-formed path component: non-empty and without `/`. Sanitized hosts
and path segments have this shape. -/
def goodComp (s : String) : Prop := s.data ≠ [] ∧ '/' ∉ s.data

theorem str_eq_iff_data (a b : String) : a = b ↔ a.data = b.data := by
  constructor
  · intro h; rw [h]
  · intro h; cases a; cases b; exact congrArg String.mk h

theorem str_ne_empty_of_data (a : String) (h : a.data ≠ []) : a ≠ "" := by
  intro e
  rw [e] at h
  exact h rfl

theorem str_data_ne_of_ne_empty (a : String) (h : a ≠ "") : a.data ≠ [] := by
  intro e
  exact h ((str_eq_iff_data a "").mpr (by simpa using e))

theorem strApp_assoc (a b c : String) : a ++ b ++ c = a ++ (b ++ c) := by
  rw [str_eq_iff_data]
  simp [List.append_assoc]

theorem strApp_data_ne_left (a b : String) (h : a.data ≠ []) : (a ++ b).data ≠ [] := by
  simp only [String.data_append]
  intro e
  rcases List.append_eq_nil.mp e with ⟨e1, _⟩
  exact h e1

theorem strApp_data_ne_right (a b : String) (h : b.data ≠ []) : (a ++ b).data ≠ [] := by
  simp only [String.data_append]
  intro e
  rcases List.append_eq_nil.mp e with ⟨_, e2⟩
  exact h e2

theorem endsWithSlash_append (a b : String) (hb : b.data ≠ []) :
    endsWithSlash (a ++ b) = endsWithSlash b := by
  unfold endsWithSlash
  rw [String.data_append, List.getLast?_append_of_ne_nil _ hb]

theorem startsWithSlash_append (a b : String) (ha : a.data ≠ []) :
    startsWithSlash (a ++ b) = startsWithSlash a := by
  unfold startsWithSlash
  rw [String.data_append, List.head?_append_of_ne_nil _ ha]

theorem sanitizeChar_ne_slash (c : Char) : sanitizeChar c ≠ '/' := by
  unfold sanitizeChar
  split
  · decide
  · rename_i h
    intro hc
    exact h (Or.inr (Or.inl hc))

theorem sanitize_no_slash (s : String) : '/' ∉ (sanitize_filename s).data := by
  show '/' ∉ s.data.map sanitizeChar
  intro h
  rw [List.mem_map] at h
  obtain ⟨c, _, hc⟩ := h
  exact sanitizeChar_ne_slash c hc

theorem sanitize_data_ne (s : String) (h : s.data ≠ []) :
    (sanitize_filename s).data ≠ [] := by
  show s.data.map sanitizeChar ≠ []
  simpa using h

theorem goodComp_sanitize (s : String) (h : s.data ≠ []) :
    goodComp (sanitize_filename s) :=
  ⟨sanitize_data_ne s h, sanitize_no_slash s⟩

theorem goodComp_not_ends (s : String) (h : goodComp s) : endsWithSlash s = false := by
  unfold endsWithSlash
  cases hg : s.data.getLast? with
  | none => rfl
  | some c =>
    have hc : c ∈ s.data := List.mem_of_mem_getLast? (by rw [hg]; rfl)
    by_contra hne
    have : c = '/' := by
      simpa using hne
    exact h.2 (this ▸ hc)

theorem goodComp_not_starts (s : String) (h : goodComp s) : startsWithSlash s = false := by
  unfold startsWithSlash
  cases hd : s.data.head? with
  | none => rfl
  | some c =>
    have hc : c ∈ s.data := List.mem_of_mem_head? (by rw [hd]; rfl)
    by_contra hne
    have : c = '/' := by
      simpa using hne
    exact h.2 (this ▸ hc)

theorem ospathJoin2_eq (path b : String) (hp : path.data ≠ [])
    (hpe : endsWithSlash path = false) (hb : startsWithSlash b = false) :
    ospathJoin2 path b = path ++ "/" ++ b := by
  unfold ospathJoin2
  rw [hb, hpe]
  simp [str_ne_empty_of_data path hp]

theorem joinSlash_cons₂ (a b : String) (l : List String) :
    joinSlash (a :: b :: l) = a ++ "/" ++ joinSlash (b :: l) := rfl

theorem joinSlash_cons_cons (a c : String) (rest : List String) :
    joinSlash ((a ++ "/" ++ c) :: rest) = a ++ "/" ++ joinSlash (c :: rest) := by
  cases rest with
  | nil => rfl
  | cons r rs =>
    rw [joinSlash_cons₂, joinSlash_cons₂]
    simp only [strApp_assoc]

theorem ospathJoin_good (out : String) (comps : List String) (h1 : out.data ≠ [])
    (h2 : endsWithSlash out = false) (hc : ∀ c ∈ comps, goodComp c) :
    ospathJoin out comps = joinSlash (out :: comps)
    ∧ (joinSlash (out :: comps)).data ≠ []
    ∧ endsWithSlash (joinSlash (out :: comps)) = false := by
  induction comps generalizing out with
  | nil => exact ⟨rfl, h1, h2⟩
  | cons c rest ih =>
    have hcg : goodComp c := hc c (List.mem_cons_self c rest)
    have hstep : ospathJoin out (c :: rest) = ospathJoin (out ++ "/" ++ c) rest := by
      show List.foldl ospathJoin2 (ospathJoin2 out c) rest = _
      rw [ospathJoin2_eq out c h1 h2 (goodComp_not_starts c hcg)]
      rfl
    have hne : (out ++ "/" ++ c).data ≠ [] :=
      strApp_data_ne_right _ _ hcg.1
    have hends : endsWithSlash (out ++ "/" ++ c) = false := by
      rw [endsWithSlash_append _ _ hcg.1]
      exact goodComp_not_ends c hcg
    have hrest : ∀ x ∈ rest, goodComp x := fun x hx => hc x (List.mem_cons_of_mem c hx)
    obtain ⟨e1, e2, e3⟩ := ih (out ++ "/" ++ c) hne hends hrest
    refine ⟨?_, ?_, ?_⟩
    · rw [joinSlash_cons₂, hstep, e1, joinSlash_cons_cons]
    · rw [joinSlash_cons₂, ← joinSlash_cons_cons]
      exact e2
    · rw [joinSlash_cons₂, ← joinSlash_cons_cons]
      exact e3

theorem getLastD_good (l : List String) (d : String) (hl : ∀ x ∈ l, goodComp x)
    (hd : goodComp d) : goodComp (l.getLastD d) := by
  cases h : l.getLast? with
  | none =>
    rw [List.getLastD_eq_getLast?, h]
    exact hd
  | some x =>
    rw [List.getLastD_eq_getLast?, h]
    exact hl x (List.mem_of_mem_getLast? (by rw [h]; rfl))

theorem startsApp1 (a b : String) (ha : goodComp a) :
    startsWithSlash (a ++ b) = false := by
  rw [startsWithSlash_append _ _ ha.1]
  exact goodComp_not_starts a ha

theorem startsApp3 (a b c d : String) (ha : goodComp a) :
    startsWithSlash (a ++ b ++ c ++ d) = false := by
  rw [startsWithSlash_append _ _ (strApp_data_ne_left _ _ (strApp_data_ne_left _ _ ha.1)),
    startsWithSlash_append _ _ (strApp_data_ne_left _ _ ha.1),
    startsWithSlash_append _ _ ha.1]
  exact goodComp_not_starts a ha

theorem buildPath_eq (out : String) (comps : List String) (fname : String)
    (hout : out.data ≠ []) (h2 : endsWithSlash out = false)
    (hcomps : ∀ c ∈ comps, goodComp c) (hf : startsWithSlash fname = false) :
    ospathJoin2 (ospathJoin out comps) fname = joinSlash (out :: comps) ++ "/" ++ fname := by
  obtain ⟨j1, j2, j3⟩ := ospathJoin_good out comps hout h2 hcomps
  rw [j1, ospathJoin2_eq _ _ j2 j3 hf]

/-- C4: for every URL with a (non-empty) host, `save_page` performs exactly one
write, whose path is `outputDir/H/P[0..len-2]` plus `P[last].md`
(`base_F.md` with a fragment; `H` when `P` is empty), every segment
sanitized, and whose content is `# <URL>`, a blank line, and the markdown —
i.e. it coincides with the layout as the specification words it
(`save_page_spec`). `outputDir` is assumed non-empty without a trailing
slash, as in any path written `outputDir/...`. -/
theorem save_page_matches_spec (url md out : String) (h1 : out ≠ "")
    (h2 : endsWithSlash out = false) (h3 : (urlparse url).netloc ≠ "") :
    save_page url md out = save_page_spec url md out := by
  have hH : goodComp (sanitize_filename (urlparse url).netloc) :=
    goodComp_sanitize _ (str_data_ne_of_ne_empty _ h3)
  have hP : ∀ p ∈ ((splitSlashes (urlparse url).path).filter
      (fun part => part ≠ "")).map sanitize_filename, goodComp p := by
    intro p hp
    rw [List.mem_map] at hp
    obtain ⟨q, hq, rfl⟩ := hp
    rw [List.mem_filter] at hq
    have hq2 : q ≠ "" := by simpa using hq.2
    exact goodComp_sanitize q (str_data_ne_of_ne_empty q hq2)
  have hcomps : ∀ c ∈ sanitize_filename (urlparse url).netloc ::
      (((splitSlashes (urlparse url).path).filter
        (fun part => part ≠ "")).map sanitize_filename).dropLast, goodComp c := by
    intro c hc
    rcases List.mem_cons.mp hc with h | h
    · exact h ▸ hH
    · exact hP c (List.dropLast_subset _ h)
  have hEP : goodComp ((((splitSlashes (urlparse url).path).filter
      (fun part => part ≠ "")).map sanitize_filename).getLastD
      (sanitize_filename (urlparse url).netloc)) := getLastD_good _ _ hP hH
  have hFN : startsWithSlash (if (urlparse url).fragment ≠ "" then
      (((splitSlashes (urlparse url).path).filter (fun part => part ≠ "")).map
        sanitize_filename).getLastD (sanitize_filename (urlparse url).netloc)
        ++ "_" ++ sanitize_filename (urlparse url).fragment ++ ".md"
    else (((splitSlashes (urlparse url).path).filter (fun part => part ≠ "")).map
        sanitize_filename).getLastD (sanitize_filename (urlparse url).netloc) ++ ".md")
      = false := by
    split
    · exact startsApp3 _ _ _ _ hEP
    · exact startsApp1 _ _ hEP
  have key := buildPath_eq out
    (sanitize_filename (urlparse url).netloc ::
      (((splitSlashes (urlparse url).path).filter (fun part => part ≠ "")).map
        sanitize_filename).dropLast)
    _ (str_data_ne_of_ne_empty out h1) h2 hcomps hFN
  exact congrArg (fun x => (x, "# " ++ url ++ "\n\n" ++ md)) key

theorem save_page_matches_spec_witness :
    "outdir" ≠ "" ∧ endsWithSlash "outdir" = false
    ∧ (urlparse "https://docs.example.com/stream/4.7/upgrading-workers").netloc ≠ ""
    ∧ save_page "https://docs.example.com/stream/4.7/upgrading-workers" "hello" "outdir"
      = save_page_spec "https://docs.example.com/stream/4.7/upgrading-workers" "hello" "outdir" :=
  ⟨by decide, by decide, by decide,
    save_page_matches_spec "https://docs.example.com/stream/4.7/upgrading-workers"
      "hello" "outdir" (by decide) (by decide) (by decide)⟩

/-- C3: evaluating `save_page` at the fragment-bearing URL of the claim. The
code places the file directly in the `stream` directory
(`.../stream/deploy-cloud_pricing.md`); it does NOT create the
`deploy-cloud` directory that both the claim and the function's own
docstring promise (`.../stream/deploy-cloud/deploy-cloud_pricing.md`). -/
theorem save_page_fragment_actual :
    (save_page "https://docs.example.com/stream/deploy-cloud#pricing" "BODY" "out").1
      = "out/docs.example.com/stream/deploy-cloud_pricing.md"
    ∧ (save_page "https://docs.example.com/stream/deploy-cloud#pricing" "BODY" "out").1
      ≠ "out/docs.example.com/stream/deploy-cloud/deploy-cloud_pricing.md" := by
  constructor
  · decide
  · decide

/-- C5: on any failure of the fetch step (timeout, non-2xx status via
`raise_for_status`, network error) or of the conversion step (malformed
HTML), `scrape_page` propagates nothing to its caller: it returns the
PageResult whose url is the input URL, whose markdown is empty and whose
links list is empty (the failure is only printed). -/
theorem scrape_page_failure (C : Collaborators) (url : String)
    (h : (∃ e, C.httpGet url = .error e)
      ∨ ∃ html e, C.httpGet url = .ok html ∧ C.render html = .error e) :
    scrape_page C url = ⟨url, "", []⟩ := by
  unfold scrape_page
  rcases h with ⟨e, he⟩ | ⟨html, e, hok, he⟩
  · rw [he]
  · rw [hok]
    dsimp only
    rw [he]

theorem scrape_page_failure_witness :
    ((∃ e, (⟨fun _ => .error "boom", fun _ => .ok "", fun _ => []⟩ :
        Collaborators).httpGet "https://h/x" = .error e)
      ∨ ∃ html e, (⟨fun _ => .error "boom", fun _ => .ok "", fun _ => []⟩ :
        Collaborators).httpGet "https://h/x" = .ok html
        ∧ (⟨fun _ => .error "boom", fun _ => .ok "", fun _ => []⟩ :
        Collaborators).render html = .error e)
    ∧ scrape_page ⟨fun _ => .error "boom", fun _ => .ok "", fun _ => []⟩ "https://h/x"
      = ⟨"https://h/x", "", []⟩ :=
  ⟨Or.inl ⟨"boom", rfl⟩,
    scrape_page_failure ⟨fun _ => .error "boom", fun _ => .ok "", fun _ => []⟩
      "https://h/x" (Or.inl ⟨"boom", rfl⟩)⟩

theorem acquire_first_call (st : RLState) (now : ℚ) (h : st.last_request = 0) :
    acquire st now = (now, ⟨st.delay, now⟩) := by
  unfold acquire
  rw [if_pos h]

theorem acquire_eq_max (st : RLState) (now : ℚ) (h : st.last_request ≠ 0) :
    acquire st now = (max now (st.last_request + st.delay),
      ⟨st.delay, max now (st.last_request + st.delay)⟩) := by
  simp only [acquire, if_neg h]
  split_ifs with hc
  · have e : now + (st.delay - (now - st.last_request))
        = max now (st.last_request + st.delay) := by
      rw [max_eq_right (by linarith)]
      ring
    rw [e]
  · rw [max_eq_left (by linarith)]

theorem grants_state (d : ℚ) (t : ℕ → ℚ) (hd : 0 ≤ d) (h0 : 0 < t 0) :
    ∀ n, (grants d t n).2 = ⟨d, (grants d t n).1⟩ ∧ 0 < (grants d t n).1 := by
  intro n
  induction n with
  | zero =>
    have e : grants d t 0 = (t 0, ⟨d, t 0⟩) := acquire_first_call (initRL d) (t 0) rfl
    rw [e]
    exact ⟨rfl, h0⟩
  | succ n ih =>
    have hne : (⟨d, (grants d t n).1⟩ : RLState).last_request ≠ 0 := ne_of_gt ih.2
    have e : grants d t (n + 1)
        = (max (t (n + 1)) ((grants d t n).1 + d),
           ⟨d, max (t (n + 1)) ((grants d t n).1 + d)⟩) := by
      show acquire (grants d t n).2 (t (n + 1)) = _
      rw [ih.1, acquire_eq_max _ _ hne]
    rw [e]
    refine ⟨rfl, ?_⟩
    have hgd : 0 < (grants d t n).1 + d := by linarith [ih.2]
    exact lt_of_lt_of_le hgd (le_max_right _ _)

/-- C6: for a `RateLimiter` with non-negative delay `d` and any sequence of
serialized acquisitions (the actor processes them one at a time; `t n` is
the start time of the `n`-th call, the first one at a positive clock
value), the first call returns immediately at its own start time, and any
two consecutive grants are at least `d` apart. -/
theorem rate_limiter_spacing (d : ℚ) (t : ℕ → ℚ) (hd : 0 ≤ d) (h0 : 0 < t 0) :
    (grants d t 0).1 = t 0
    ∧ ∀ n, (grants d t n).1 + d ≤ (grants d t (n + 1)).1 := by
  constructor
  · show (acquire (initRL d) (t 0)).1 = t 0
    rw [acquire_first_call (initRL d) (t 0) rfl]
  · intro n
    obtain ⟨hst, hpos⟩ := grants_state d t hd h0 n
    have e : grants d t (n + 1)
        = (max (t (n + 1)) ((grants d t n).1 + d),
           ⟨d, max (t (n + 1)) ((grants d t n).1 + d)⟩) := by
      show acquire (grants d t n).2 (t (n + 1)) = _
      rw [hst, acquire_eq_max _ _ (ne_of_gt hpos)]
    rw [e]
    exact le_max_right _ _

theorem rate_limiter_spacing_witness :
    (0 : ℚ) ≤ 1 ∧ (0 : ℚ) < (fun n : ℕ => (n : ℚ) + 1) 0
    ∧ ((grants 1 (fun n : ℕ => (n : ℚ) + 1) 0).1 = (fun n : ℕ => (n : ℚ) + 1) 0
      ∧ ∀ n, (grants 1 (fun n : ℕ => (n : ℚ) + 1) n).1 + 1
        ≤ (grants 1 (fun n : ℕ => (n : ℚ) + 1) (n + 1)).1) :=
  ⟨by norm_num, by norm_num,
    rate_limiter_spacing 1 (fun n : ℕ => (n : ℚ) + 1) (by norm_num) (by norm_num)⟩

theorem scrape_page_url (C : Collaborators) (u : String) : (scrape_page C u).url = u := by
  unfold scrape_page
  cases hg : C.httpGet u with
  | error e => rfl
  | ok html =>
    dsimp only
    cases hr : C.render html with
    | error e => rfl
    | ok m => rfl

theorem scrape_page_eq (C : Collaborators) (u : String) :
    scrape_page C u = ⟨u, pageMd C u, pageLinks C u⟩ := by
  unfold scrape_page pageMd pageLinks
  cases hg : C.httpGet u with
  | error e => rfl
  | ok html =>
    dsimp only
    cases hr : C.render html with
    | error e => rfl
    | ok m => rfl

theorem map_url_scrape (C : Collaborators) (p : List String) :
    (p.map (scrape_page C)).map (fun r => r.url) = p := by
  rw [List.map_map]
  have e : ((fun r : PageResult => r.url) ∘ scrape_page C) = fun u => u := by
    funext u
    exact scrape_page_url C u
  rw [e]
  exact List.map_id p

theorem perm_getD_eraseIdx :
    ∀ (l : List String) (i : Nat), i < l.length → (l.getD i "" :: l.eraseIdx i).Perm l
  | [], i, h => by simp at h
  | x :: xs, 0, _ => by simp
  | x :: xs, i + 1, h => by
    have hi : i < xs.length := by simpa using h
    have ih := perm_getD_eraseIdx xs i hi
    simp only [List.getD_cons_succ, List.eraseIdx_cons_succ]
    exact (List.Perm.swap x (xs.getD i "") (xs.eraseIdx i)).trans (ih.cons x)

theorem processUrlsGo_perm (C : Collaborators) (maxc : Nat) (pick : Nat → Nat) :
    ∀ (us : List String) (step : Nat) (tasks : List String) (results : List PageResult),
    ∃ p : List String, p.Perm (tasks ++ us)
      ∧ processUrlsGo C maxc pick us step tasks results
        = results ++ p.map (scrape_page C) := by
  intro us
  induction us with
  | nil =>
    intro step tasks results
    exact ⟨tasks, by simp, rfl⟩
  | cons u rest ih =>
    intro step tasks results
    by_cases hcap : maxc ≤ (tasks ++ [u]).length
    · have hlen : 0 < (tasks ++ [u]).length := by simp
      have hi : pick step % (tasks ++ [u]).length < (tasks ++ [u]).length :=
        Nat.mod_lt _ hlen
      obtain ⟨p, hp, he⟩ := ih (step + 1)
        ((tasks ++ [u]).eraseIdx (pick step % (tasks ++ [u]).length))
        (results ++ [scrape_page C
          ((tasks ++ [u]).getD (pick step % (tasks ++ [u]).length) "")])
      refine ⟨(tasks ++ [u]).getD (pick step % (tasks ++ [u]).length) "" :: p, ?_, ?_⟩
      · have h1 := hp.cons ((tasks ++ [u]).getD (pick step % (tasks ++ [u]).length) "")
        have h2 := (perm_getD_eraseIdx (tasks ++ [u])
          (pick step % (tasks ++ [u]).length) hi).append_right rest
        have h3 := h1.trans h2
        rw [List.append_assoc] at h3
        exact h3
      · simp only [processUrlsGo, if_pos hcap]
        rw [he]
        simp [List.append_assoc]
    · obtain ⟨p, hp, he⟩ := ih (step + 1) (tasks ++ [u]) results
      refine ⟨p, ?_, ?_⟩
      · rw [List.append_assoc] at hp
        exact hp
      · simp only [processUrlsGo, if_neg hcap]
        exact he

theorem process_urls_perm (C : Collaborators) (maxc : Nat) (pick : Nat → Nat)
    (urls : List String) :
    ∃ p : List String, p.Perm urls
      ∧ process_urls C maxc pick urls = p.map (scrape_page C) := by
  obtain ⟨p, hp, he⟩ := processUrlsGo_perm C maxc pick urls 0 [] []
  exact ⟨p, by simpa using hp, by simpa using he⟩

theorem processUrlsGoT_fst (C : Collaborators) (maxc : Nat) (pick : Nat → Nat) :
    ∀ (us : List String) (step : Nat) (tasks : List String) (results : List PageResult),
    (processUrlsGoT C maxc pick us step tasks results).1
      = processUrlsGo C maxc pick us step tasks results := by
  intro us
  induction us with
  | nil => intro _ _ _; rfl
  | cons u rest ih =>
    intro step tasks results
    by_cases hcap : maxc ≤ (tasks ++ [u]).length
    · simp only [processUrlsGoT, processUrlsGo, if_pos hcap]
      exact ih _ _ _
    · simp only [processUrlsGoT, processUrlsGo, if_neg hcap]
      exact ih _ _ _

theorem processUrlsGoT_bound (C : Collaborators) (maxc : Nat) (pick : Nat → Nat) :
    ∀ (us : List String) (step : Nat) (tasks : List String) (results : List PageResult),
    tasks.length < maxc →
      ∀ n ∈ (processUrlsGoT C maxc pick us step tasks results).2, n ≤ maxc := by
  intro us
  induction us with
  | nil =>
    intro step tasks results _ n hn
    simp [processUrlsGoT] at hn
  | cons u rest ih =>
    intro step tasks results hlt n hn
    by_cases hcap : maxc ≤ (tasks ++ [u]).length
    · simp only [processUrlsGoT, if_pos hcap] at hn
      rcases List.mem_cons.mp hn with h | h
      · subst h
        simp only [List.length_append, List.length_cons, List.length_nil]
        omega
      · refine ih _ _ _ ?_ _ h
        have hi : pick step % (tasks ++ [u]).length < (tasks ++ [u]).length :=
          Nat.mod_lt _ (by simp)
        have := List.length_eraseIdx_add_one hi
        simp only [List.length_append, List.length_cons, List.length_nil] at this ⊢
        omega
    · simp only [processUrlsGoT, if_neg hcap] at hn
      rcases List.mem_cons.mp hn with h | h
      · subst h
        simp only [List.length_append, List.length_cons, List.length_nil] at hcap ⊢
        omega
      · refine ih _ _ _ ?_ _ h
        simp only [List.length_append, List.length_cons, List.length_nil] at hcap ⊢
        omega

/-- C7: for any input URL list and `maxConcurrency`, `process_urls` returns
exactly one PageResult per input URL — the multiset of result urls is a
permutation of the inputs — for every completion order the `ray.wait`
scheduler can produce; the pool of outstanding tasks never exceeds
`maxConcurrency` (the instrumented `processUrlsGoT`, whose first component
is `process_urls` itself, records the pool size at every launch point); and
the results are not guaranteed in input order (a two-element batch comes
back reversed under one scheduling). -/
theorem process_urls_complete (C : Collaborators) (maxc : Nat) (pick : Nat → Nat)
    (urls : List String) (hc : 1 ≤ maxc) :
    ((process_urls C maxc pick urls).map (fun r => r.url)).Perm urls
    ∧ (∀ n ∈ (processUrlsGoT C maxc pick urls 0 [] []).2, n ≤ maxc)
    ∧ (processUrlsGoT C maxc pick urls 0 [] []).1 = process_urls C maxc pick urls
    ∧ (process_urls trivColl 2 (fun _ => 1) ["a", "b"]).map (fun r => r.url) ≠ ["a", "b"] := by
  refine ⟨?_, ?_, ?_, ?_⟩
  · obtain ⟨p, hp, he⟩ := process_urls_perm C maxc pick urls
    rw [he, map_url_scrape]
    exact hp
  · exact processUrlsGoT_bound C maxc pick urls 0 [] [] (by simpa using hc)
  · exact processUrlsGoT_fst C maxc pick urls 0 [] []
  · decide

theorem process_urls_complete_witness :
    1 ≤ 2
    ∧ (((process_urls trivColl 2 (fun _ => 1) ["a", "b"]).map (fun r => r.url)).Perm
        ["a", "b"]
      ∧ (∀ n ∈ (processUrlsGoT trivColl 2 (fun _ => 1) ["a", "b"] 0 [] []).2, n ≤ 2)
      ∧ (processUrlsGoT trivColl 2 (fun _ => 1) ["a", "b"] 0 [] []).1
        = process_urls trivColl 2 (fun _ => 1) ["a", "b"]
      ∧ (process_urls trivColl 2 (fun _ => 1) ["a", "b"]).map (fun r => r.url)
        ≠ ["a", "b"]) :=
  ⟨by decide, process_urls_complete trivColl 2 (fun _ => 1) ["a", "b"] (by decide)⟩

theorem saves_map_fst (C : Collaborators) (out : String) (l : List String) :
    (l.map (saveEv C out)).map (fun e => e.1) = l := by
  rw [List.map_map]
  have e : ((fun e : String × String × String => e.1) ∘ saveEv C out) = fun u => u := by
    funext u
    rfl
  rw [e]
  exact List.map_id l

theorem filter_links_mem (links : List String) (base_url : String) (x : String) :
    x ∈ filter_links links base_url
      ↔ ∃ lk ∈ links, x = urljoin base_url lk
          ∧ (urlparse x).netloc = (urlparse base_url).netloc := by
  unfold filter_links
  simp only [List.mem_filter, List.mem_map]
  constructor
  · rintro ⟨⟨l, hl, rfl⟩, hd⟩
    exact ⟨l, hl, rfl, by simpa using hd⟩
  · rintro ⟨l, hl, rfl, hd⟩
    exact ⟨⟨l, hl, rfl⟩, by simpa using hd⟩

theorem addLinks_mem (vis cl : List String) :
    ∀ (ls next : List String) (x : String),
    x ∈ addLinks vis cl next ls ↔ x ∈ next ∨ (x ∈ ls ∧ x ∉ vis ∧ x ∉ cl) := by
  intro ls
  induction ls with
  | nil =>
    intro next x
    simp [addLinks]
  | cons l rest ih =>
    intro next x
    by_cases hcnd : l ∉ vis ∧ l ∉ cl ∧ l ∉ next
    · obtain ⟨h1, h2, h3⟩ := hcnd
      simp only [addLinks]
      rw [if_pos ⟨h1, h2, h3⟩, ih (next ++ [l]) x]
      simp only [List.mem_append, List.mem_cons, List.not_mem_nil, or_false]
      constructor
      · rintro ((hn | rfl) | ⟨hr, hv, hcl2⟩)
        · exact Or.inl hn
        · exact Or.inr ⟨Or.inl rfl, h1, h2⟩
        · exact Or.inr ⟨Or.inr hr, hv, hcl2⟩
      · rintro (hn | ⟨(rfl | hr), hv, hcl2⟩)
        · exact Or.inl (Or.inl hn)
        · exact Or.inl (Or.inr rfl)
        · exact Or.inr ⟨hr, hv, hcl2⟩
    · simp only [addLinks]
      rw [if_neg hcnd, ih next x]
      push_neg at hcnd
      simp only [List.mem_cons]
      constructor
      · rintro (hn | ⟨hr, hv, hcl2⟩)
        · exact Or.inl hn
        · exact Or.inr ⟨Or.inr hr, hv, hcl2⟩
      · rintro (hn | ⟨(rfl | hr), hv, hcl2⟩)
        · exact Or.inl hn
        · exact Or.inl (hcnd hv hcl2)
        · exact Or.inr ⟨hr, hv, hcl2⟩

theorem addLinks_nodup (vis cl : List String) :
    ∀ (ls next : List String), next.Nodup → (addLinks vis cl next ls).Nodup := by
  intro ls
  induction ls with
  | nil =>
    intro next h
    simpa [addLinks] using h
  | cons l rest ih =>
    intro next h
    by_cases hcnd : l ∉ vis ∧ l ∉ cl ∧ l ∉ next
    · simp only [addLinks]
      rw [if_pos hcnd]
      refine ih _ (List.Nodup.append h (List.nodup_singleton l) ?_)
      intro a ha hal
      rw [List.mem_singleton] at hal
      subst hal
      exact hcnd.2.2 ha
    · simp only [addLinks]
      rw [if_neg hcnd]
      exact ih next h

theorem procResults_extend (base out : String) (cl : List String) :
    ∀ (rs : List PageResult) (vis next : List String)
      (saves : List (String × String × String)),
    ∃ tv ts, (procResults base out cl rs vis next saves).1 = vis ++ tv
      ∧ (procResults base out cl rs vis next saves).2.2 = saves ++ ts := by
  intro rs
  induction rs with
  | nil =>
    intro vis next saves
    exact ⟨[], [], by simp [procResults], by simp [procResults]⟩
  | cons r rest ih =>
    intro vis next saves
    by_cases hv : r.url ∈ vis
    · simp only [procResults, if_pos hv]
      exact ih vis next saves
    · simp only [procResults, if_neg hv]
      obtain ⟨tv, ts, e1, e2⟩ := ih (vis ++ [r.url])
        (addLinks (vis ++ [r.url]) cl next (filter_links r.links base))
        (saves ++ [(r.url, save_page r.url r.markdown out)])
      refine ⟨[r.url] ++ tv, [(r.url, save_page r.url r.markdown out)] ++ ts, ?_, ?_⟩
      · rw [e1, List.append_assoc]
      · rw [e2, List.append_assoc]

theorem procResults_vis_saves (base out : String) (cl : List String) :
    ∀ (rs : List PageResult) (vis next : List String)
      (saves : List (String × String × String)),
    (rs.map (fun r => r.url)).Nodup → (∀ r ∈ rs, r.url ∉ vis) →
    (procResults base out cl rs vis next saves).1 = vis ++ rs.map (fun r => r.url)
    ∧ (procResults base out cl rs vis next saves).2.2
      = saves ++ rs.map (fun r => (r.url, save_page r.url r.markdown out)) := by
  intro rs
  induction rs with
  | nil =>
    intro vis next saves _ _
    simp [procResults]
  | cons r rest ih =>
    intro vis next saves hnd hdis
    have hv : r.url ∉ vis := hdis r (List.mem_cons_self r rest)
    simp only [procResults, if_neg hv]
    have hnd2 : (rest.map (fun r => r.url)).Nodup := by
      simp only [List.map_cons, List.nodup_cons] at hnd
      exact hnd.2
    have hnotin : r.url ∉ rest.map (fun r => r.url) := by
      simp only [List.map_cons, List.nodup_cons] at hnd
      exact hnd.1
    have hdis2 : ∀ s ∈ rest, s.url ∉ vis ++ [r.url] := by
      intro s hs
      simp only [List.mem_append, List.mem_singleton]
      rintro (h | h)
      · exact hdis s (List.mem_cons_of_mem r hs) h
      · apply hnotin
        rw [← h]
        exact List.mem_map_of_mem (fun r => r.url) hs
    obtain ⟨e1, e2⟩ := ih (vis ++ [r.url])
      (addLinks (vis ++ [r.url]) cl next (filter_links r.links base))
      (saves ++ [(r.url, save_page r.url r.markdown out)]) hnd2 hdis2
    constructor
    · rw [e1, List.append_assoc, List.singleton_append, List.map_cons]
    · rw [e2, List.append_assoc, List.singleton_append, List.map_cons]

theorem procResults_next_mem (base out : String) (cl : List String) :
    ∀ (rs : List PageResult) (vis next : List String)
      (saves : List (String × String × String)),
    (rs.map (fun r => r.url)).Nodup → (∀ r ∈ rs, r.url ∉ vis) → (∀ r ∈ rs, r.url ∈ cl) →
    ∀ x, x ∈ (procResults base out cl rs vis next saves).2.1
      ↔ x ∈ next ∨ ((∃ r ∈ rs, x ∈ filter_links r.links base) ∧ x ∉ vis ∧ x ∉ cl) := by
  intro rs
  induction rs with
  | nil =>
    intro vis next saves _ _ _ x
    simp [procResults]
  | cons r rest ih =>
    intro vis next saves hnd hdis hcl x
    have hv : r.url ∉ vis := hdis r (List.mem_cons_self r rest)
    simp only [procResults, if_neg hv]
    have hnd2 : (rest.map (fun r => r.url)).Nodup := by
      simp only [List.map_cons, List.nodup_cons] at hnd
      exact hnd.2
    have hnotin : r.url ∉ rest.map (fun r => r.url) := by
      simp only [List.map_cons, List.nodup_cons] at hnd
      exact hnd.1
    have hdis2 : ∀ s ∈ rest, s.url ∉ vis ++ [r.url] := by
      intro s hs
      simp only [List.mem_append, List.mem_singleton]
      rintro (h | h)
      · exact hdis s (List.mem_cons_of_mem r hs) h
      · apply hnotin
        rw [← h]
        exact List.mem_map_of_mem (fun r => r.url) hs
    have hcl2 : ∀ s ∈ rest, s.url ∈ cl := fun s hs => hcl s (List.mem_cons_of_mem r hs)
    rw [ih (vis ++ [r.url])
      (addLinks (vis ++ [r.url]) cl next (filter_links r.links base))
      (saves ++ [(r.url, save_page r.url r.markdown out)]) hnd2 hdis2 hcl2 x]
    rw [addLinks_mem (vis ++ [r.url]) cl (filter_links r.links base) next x]
    have hsimp : ∀ hx2 : x ∉ cl, (x ∉ vis ++ [r.url] ↔ x ∉ vis) := by
      intro hx2
      constructor
      · intro h hx
        exact h (List.mem_append_left _ hx)
      · intro h hx
        rcases List.mem_append.mp hx with h2 | h2
        · exact h h2
        · rw [List.mem_singleton] at h2
          apply hx2
          rw [h2]
          exact hcl r (List.mem_cons_self r rest)
    constructor
    · rintro ((hn | ⟨hfl, hv1, hv2⟩) | ⟨⟨s, hs, hfls⟩, hv1, hv2⟩)
      · exact Or.inl hn
      · exact Or.inr ⟨⟨r, List.mem_cons_self r rest, hfl⟩, (hsimp hv2).mp hv1, hv2⟩
      · exact Or.inr ⟨⟨s, List.mem_cons_of_mem r hs, hfls⟩, (hsimp hv2).mp hv1, hv2⟩
    · rintro (hn | ⟨⟨s, hs, hfls⟩, hv1, hv2⟩)
      · exact Or.inl (Or.inl hn)
      · rcases List.mem_cons.mp hs with rfl | hs2
        · exact Or.inl (Or.inr ⟨hfls, (hsimp hv2).mpr hv1, hv2⟩)
        · exact Or.inr ⟨⟨s, hs2, hfls⟩, (hsimp hv2).mpr hv1, hv2⟩

theorem procResults_next_nodup (base out : String) (cl : List String) :
    ∀ (rs : List PageResult) (vis next : List String)
      (saves : List (String × String × String)),
    next.Nodup → (procResults base out cl rs vis next saves).2.1.Nodup := by
  intro rs
  induction rs with
  | nil =>
    intro vis next saves h
    simpa [procResults] using h
  | cons r rest ih =>
    intro vis next saves h
    by_cases hv : r.url ∈ vis
    · simp only [procResults, if_pos hv]
      exact ih vis next saves h
    · simp only [procResults, if_neg hv]
      exact ih _ _ _ (addLinks_nodup _ _ _ _ h)

theorem procResults_next_src (base out : String) (cl : List String) :
    ∀ (rs : List PageResult) (vis next : List String)
      (saves : List (String × String × String)) (x : String),
    x ∈ (procResults base out cl rs vis next saves).2.1 →
    x ∈ next ∨ ∃ r ∈ rs, x ∈ filter_links r.links base := by
  intro rs
  induction rs with
  | nil =>
    intro vis next saves x h
    simp only [procResults] at h
    exact Or.inl h
  | cons r rest ih =>
    intro vis next saves x h
    by_cases hv : r.url ∈ vis
    · simp only [procResults, if_pos hv] at h
      rcases ih vis next saves x h with h2 | ⟨s, hs, hfl⟩
      · exact Or.inl h2
      · exact Or.inr ⟨s, List.mem_cons_of_mem r hs, hfl⟩
    · simp only [procResults, if_neg hv] at h
      rcases ih _ _ _ x h with h2 | ⟨s, hs, hfl⟩
      · rcases (addLinks_mem _ _ _ _ x).mp h2 with h3 | ⟨h3, _, _⟩
        · exact Or.inl h3
        · exact Or.inr ⟨r, List.mem_cons_self r rest, h3⟩
      · exact Or.inr ⟨s, List.mem_cons_of_mem r hs, hfl⟩

theorem levelStep_spec (C : Collaborators) (base out : String) (maxc : Nat)
    (pick : Nat → Nat → Nat) (st : CrawlState) (hG : GoodState C out st) :
    ∃ p : List String,
      p.Perm (st.currentLevel.filter (fun u => u ∉ st.visited))
      ∧ (levelStep C base out maxc pick st).visited = st.visited ++ p
      ∧ (levelStep C base out maxc pick st).saves = st.saves ++ p.map (saveEv C out)
      ∧ (∀ x, x ∈ (levelStep C base out maxc pick st).currentLevel
          ↔ (∃ u ∈ p, x ∈ filter_links (pageLinks C u) base)
            ∧ x ∉ st.visited ∧ x ∉ st.currentLevel)
      ∧ (levelStep C base out maxc pick st).currentLevel.Nodup
      ∧ (levelStep C base out maxc pick st).depth = st.depth + 1
      ∧ (levelStep C base out maxc pick st).fetched
          = st.fetched ++ st.currentLevel.filter (fun u => u ∉ st.visited) := by
  obtain ⟨p, hp, he⟩ := process_urls_perm C maxc (pick st.depth)
    (st.currentLevel.filter (fun u => u ∉ st.visited))
  have hutsnd : (st.currentLevel.filter (fun u => u ∉ st.visited)).Nodup :=
    hG.2.1.filter _
  have hpnd : p.Nodup := (hp.nodup_iff).mpr hutsnd
  have hmem_uts : ∀ u ∈ p, u ∈ st.currentLevel ∧ u ∉ st.visited := by
    intro u hu
    have h2 := hp.subset hu
    rw [List.mem_filter] at h2
    exact ⟨h2.1, by simpa using h2.2⟩
  have hnd : ((p.map (scrape_page C)).map (fun r => r.url)).Nodup := by
    rw [map_url_scrape]
    exact hpnd
  have hdis : ∀ r ∈ p.map (scrape_page C), r.url ∉ st.visited := by
    intro r hr
    rw [List.mem_map] at hr
    obtain ⟨u, hu, rfl⟩ := hr
    rw [scrape_page_url]
    exact (hmem_uts u hu).2
  have hcl : ∀ r ∈ p.map (scrape_page C), r.url ∈ st.currentLevel := by
    intro r hr
    rw [List.mem_map] at hr
    obtain ⟨u, hu, rfl⟩ := hr
    rw [scrape_page_url]
    exact (hmem_uts u hu).1
  obtain ⟨e1, e2⟩ := procResults_vis_saves base out st.currentLevel
    (p.map (scrape_page C)) st.visited [] st.saves hnd hdis
  have hmapev : (p.map (scrape_page C)).map
      (fun r => (r.url, save_page r.url r.markdown out)) = p.map (saveEv C out) := by
    rw [List.map_map]
    have e : ((fun r : PageResult => (r.url, save_page r.url r.markdown out))
        ∘ scrape_page C) = saveEv C out := by
      funext u
      show ((scrape_page C u).url,
        save_page (scrape_page C u).url (scrape_page C u).markdown out) = saveEv C out u
      rw [scrape_page_eq]
      rfl
    rw [e]
  refine ⟨p, hp, ?_, ?_, ?_, ?_, rfl, rfl⟩
  · show (procResults base out st.currentLevel
      (process_urls C maxc (pick st.depth)
        (st.currentLevel.filter (fun u => u ∉ st.visited)))
      st.visited [] st.saves).1 = st.visited ++ p
    rw [he, e1, map_url_scrape]
  · show (procResults base out st.currentLevel
      (process_urls C maxc (pick st.depth)
        (st.currentLevel.filter (fun u => u ∉ st.visited)))
      st.visited [] st.saves).2.2 = st.saves ++ p.map (saveEv C out)
    rw [he, e2, hmapev]
  · intro x
    have hgoal : x ∈ (procResults base out st.currentLevel
        (process_urls C maxc (pick st.depth)
          (st.currentLevel.filter (fun u => u ∉ st.visited)))
        st.visited [] st.saves).2.1
        ↔ (∃ u ∈ p, x ∈ filter_links (pageLinks C u) base)
          ∧ x ∉ st.visited ∧ x ∉ st.currentLevel := by
      rw [he, procResults_next_mem base out st.currentLevel
        (p.map (scrape_page C)) st.visited [] st.saves hnd hdis hcl x]
      simp only [List.not_mem_nil, false_or]
      have hex : (∃ r ∈ p.map (scrape_page C), x ∈ filter_links r.links base)
          ↔ (∃ u ∈ p, x ∈ filter_links (pageLinks C u) base) := by
        simp only [List.mem_map]
        constructor
        · rintro ⟨r, ⟨u, hu, rfl⟩, hx⟩
          rw [scrape_page_eq] at hx
          exact ⟨u, hu, hx⟩
        · rintro ⟨u, hu, hx⟩
          refine ⟨scrape_page C u, ⟨u, hu, rfl⟩, ?_⟩
          rw [scrape_page_eq]
          exact hx
      rw [hex]
    exact hgoal
  · show (procResults base out st.currentLevel
      (process_urls C maxc (pick st.depth)
        (st.currentLevel.filter (fun u => u ∉ st.visited)))
      st.visited [] st.saves).2.1.Nodup
    exact procResults_next_nodup base out st.currentLevel _ st.visited [] st.saves
      List.nodup_nil

theorem levelStep_good (C : Collaborators) (base out : String) (maxc : Nat)
    (pick : Nat → Nat → Nat) (st : CrawlState) (hG : GoodState C out st) :
    GoodState C out (levelStep C base out maxc pick st) := by
  obtain ⟨p, hp, hv, hs, hnext, hnd, hdep, hf⟩ := levelStep_spec C base out maxc pick st hG
  obtain ⟨gv, gcl, gdis, gsav, gper⟩ := hG
  refine ⟨?_, hnd, ?_, ?_, ?_⟩
  · rw [hv]
    refine List.Nodup.append gv ((hp.nodup_iff).mpr (gcl.filter _)) ?_
    intro a hav hap
    have h2 := hp.subset hap
    rw [List.mem_filter] at h2
    exact (by simpa using h2.2 : a ∉ st.visited) hav
  · intro u hu
    obtain ⟨hex2, hnv, hncl⟩ := (hnext u).mp hu
    rw [hv]
    simp only [List.mem_append]
    rintro (h | h)
    · exact hnv h
    · have h2 := hp.subset h
      rw [List.mem_filter] at h2
      exact hncl h2.1
  · rw [hs, hv, gsav, List.map_append]
  · rw [hf, hv]
    exact gper.append hp.symm

theorem levelStep_extend (C : Collaborators) (base out : String) (maxc : Nat)
    (pick : Nat → Nat → Nat) (st : CrawlState) :
    ∃ tv ts, (levelStep C base out maxc pick st).visited = st.visited ++ tv
      ∧ (levelStep C base out maxc pick st).saves = st.saves ++ ts
      ∧ (levelStep C base out maxc pick st).fetched
        = st.fetched ++ st.currentLevel.filter (fun u => u ∉ st.visited) := by
  obtain ⟨tv, ts, h1, h2⟩ := procResults_extend base out st.currentLevel
    (process_urls C maxc (pick st.depth)
      (st.currentLevel.filter (fun u => u ∉ st.visited)))
    st.visited [] st.saves
  exact ⟨tv, ts, h1, h2, rfl⟩

theorem initState_good (C : Collaborators) (out seed : String) :
    GoodState C out (initState seed) := by
  refine ⟨List.nodup_nil, List.nodup_singleton seed, ?_, rfl, List.Perm.refl []⟩
  intro u _
  exact List.not_mem_nil u

theorem crawlLoop_empty (C : Collaborators) (base out : String) (maxc : Nat)
    (pick : Nat → Nat → Nat) :
    ∀ (f : Nat) (st : CrawlState), st.currentLevel = [] →
    crawlLoop C base out maxc pick f st = st := by
  intro f
  induction f with
  | zero => intro st _; rfl
  | succ f _ =>
    intro st h
    simp only [crawlLoop, if_pos h]

theorem crawlLoop_add (C : Collaborators) (base out : String) (maxc : Nat)
    (pick : Nat → Nat → Nat) :
    ∀ (a b : Nat) (st : CrawlState),
    crawlLoop C base out maxc pick (a + b) st
      = crawlLoop C base out maxc pick b (crawlLoop C base out maxc pick a st) := by
  intro a
  induction a with
  | zero =>
    intro b st
    rw [Nat.zero_add]
    rfl
  | succ a ih =>
    intro b st
    rw [Nat.succ_add]
    by_cases hcl : st.currentLevel = []
    · simp only [crawlLoop, if_pos hcl]
      rw [crawlLoop_empty C base out maxc pick b st hcl]
    · simp only [crawlLoop, if_neg hcl]
      exact ih b (levelStep C base out maxc pick st)

theorem crawlLoop_extend (C : Collaborators) (base out : String) (maxc : Nat)
    (pick : Nat → Nat → Nat) :
    ∀ (f : Nat) (st : CrawlState),
    ∃ tv tf ts, (crawlLoop C base out maxc pick f st).visited = st.visited ++ tv
      ∧ (crawlLoop C base out maxc pick f st).fetched = st.fetched ++ tf
      ∧ (crawlLoop C base out maxc pick f st).saves = st.saves ++ ts := by
  intro f
  induction f with
  | zero =>
    intro st
    exact ⟨[], [], [], (List.append_nil _).symm, (List.append_nil _).symm,
      (List.append_nil _).symm⟩
  | succ f ih =>
    intro st
    by_cases hcl : st.currentLevel = []
    · simp only [crawlLoop, if_pos hcl]
      exact ⟨[], [], [], by simp, by simp, by simp⟩
    · simp only [crawlLoop, if_neg hcl]
      obtain ⟨tv, tf, ts, h1, h2, h3⟩ := ih (levelStep C base out maxc pick st)
      obtain ⟨sv, ss, e1, e2, e3⟩ := levelStep_extend C base out maxc pick st
      refine ⟨sv ++ tv, st.currentLevel.filter (fun u => u ∉ st.visited) ++ tf,
        ss ++ ts, ?_, ?_, ?_⟩
      · rw [h1, e1, List.append_assoc]
      · rw [h2, e3, List.append_assoc]
      · rw [h3, e2, List.append_assoc]

theorem crawlLoop_good (C : Collaborators) (base out : String) (maxc : Nat)
    (pick : Nat → Nat → Nat) :
    ∀ (f : Nat) (st : CrawlState), GoodState C out st →
    GoodState C out (crawlLoop C base out maxc pick f st) := by
  intro f
  induction f with
  | zero => intro st h; exact h
  | succ f ih =>
    intro st h
    by_cases hcl : st.currentLevel = []
    · simpa only [crawlLoop, if_pos hcl] using h
    · simp only [crawlLoop, if_neg hcl]
      exact ih _ (levelStep_good C base out maxc pick st h)

theorem crawlLoop_term (C : Collaborators) (base out : String) (maxc : Nat)
    (pick : Nat → Nat → Nat) :
    ∀ (f : Nat) (st : CrawlState),
    (crawlLoop C base out maxc pick f st).currentLevel = []
    ∨ (crawlLoop C base out maxc pick f st).depth = st.depth + f := by
  intro f
  induction f with
  | zero => intro st; exact Or.inr rfl
  | succ f ih =>
    intro st
    by_cases hcl : st.currentLevel = []
    · simp only [crawlLoop, if_pos hcl]
      exact Or.inl hcl
    · simp only [crawlLoop, if_neg hcl]
      rcases ih (levelStep C base out maxc pick st) with h | h
      · exact Or.inl h
      · refine Or.inr ?_
        rw [h]
        show st.depth + 1 + f = st.depth + (f + 1)
        omega

theorem crawlLoop_fetched_src (C : Collaborators) (base out : String) (maxc : Nat)
    (pick : Nat → Nat → Nat) :
    ∀ (f : Nat) (st : CrawlState) (u : String),
    u ∈ (crawlLoop C base out maxc pick f st).fetched →
    u ∈ st.fetched
    ∨ ∃ j, j < f ∧ u ∈ (crawlLoop C base out maxc pick j st).currentLevel := by
  intro f
  induction f with
  | zero => intro st u h; exact Or.inl h
  | succ f ih =>
    intro st u h
    by_cases hcl : st.currentLevel = []
    · simp only [crawlLoop, if_pos hcl] at h
      exact Or.inl h
    · simp only [crawlLoop, if_neg hcl] at h
      rcases ih (levelStep C base out maxc pick st) u h with h1 | ⟨j, hj, hju⟩
      · obtain ⟨tv, ts, e1, e2, e3⟩ := levelStep_extend C base out maxc pick st
        rw [e3] at h1
        rcases List.mem_append.mp h1 with h2 | h2
        · exact Or.inl h2
        · refine Or.inr ⟨0, Nat.succ_pos f, ?_⟩
          rw [List.mem_filter] at h2
          exact h2.1
      · refine Or.inr ⟨j + 1, by omega, ?_⟩
        have e : crawlLoop C base out maxc pick (j + 1) st
            = crawlLoop C base out maxc pick j (levelStep C base out maxc pick st) := by
          simp only [crawlLoop, if_neg hcl]
        rw [e]
        exact hju

theorem levelStep_frontierOK (C : Collaborators) (base out : String) (maxc : Nat)
    (pick : Nat → Nat → Nat) (st : CrawlState) :
    FrontierOK C base (levelStep C base out maxc pick st) := by
  intro x hx
  obtain ⟨p, hp, he⟩ := process_urls_perm C maxc (pick st.depth)
    (st.currentLevel.filter (fun u => u ∉ st.visited))
  have hsrc := procResults_next_src base out st.currentLevel
    (process_urls C maxc (pick st.depth)
      (st.currentLevel.filter (fun u => u ∉ st.visited)))
    st.visited [] st.saves x hx
  rcases hsrc with h | ⟨r, hr, hfl⟩
  · exact absurd h (List.not_mem_nil x)
  · rw [he, List.mem_map] at hr
    obtain ⟨pg, hpg, rfl⟩ := hr
    rw [filter_links_mem] at hfl
    obtain ⟨lk, hlk, hxeq, hd⟩ := hfl
    refine Or.inr ⟨pg, lk, ?_, hxeq, hd⟩
    rw [scrape_page_eq] at hlk
    exact hlk

theorem crawlLoop_frontierOK (C : Collaborators) (base out : String) (maxc : Nat)
    (pick : Nat → Nat → Nat) :
    ∀ (f : Nat) (st : CrawlState), FrontierOK C base st →
    FrontierOK C base (crawlLoop C base out maxc pick f st) := by
  intro f
  induction f with
  | zero => intro st h; exact h
  | succ f ih =>
    intro st h
    by_cases hcl : st.currentLevel = []
    · simpa only [crawlLoop, if_pos hcl] using h
    · simp only [crawlLoop, if_neg hcl]
      exact ih _ (levelStep_frontierOK C base out maxc pick st)

/-- C1: across any whole crawl (any collaborators, any per-level completion
order `pick`), no URL is handed to the dispatcher twice (`fetched.Nodup`);
the visited list never loses entries (each loop iteration only appends);
each distinct URL enters it exactly once (`visited.Nodup`), and the save
events are exactly one per visited URL, emitted at the moment of insertion
(the n-th save's url is the n-th visited entry), so every addition happens
at the moment its page is saved; every dispatched URL is eventually visited
and vice versa (`fetched.Perm visited`). -/
theorem crawl_dedup (C : Collaborators) (base out : String) (maxd maxc : Nat)
    (pick : Nat → Nat → Nat) :
    (crawl_website C base out maxd maxc pick).fetched.Nodup
    ∧ (crawl_website C base out maxd maxc pick).visited.Nodup
    ∧ (crawl_website C base out maxd maxc pick).saves.map (fun e => e.1)
      = (crawl_website C base out maxd maxc pick).visited
    ∧ (crawl_website C base out maxd maxc pick).fetched.Perm
      (crawl_website C base out maxd maxc pick).visited
    ∧ ∀ k, ∃ t, (crawlLoop C base out maxc pick (k + 1) (initState base)).visited
      = (crawlLoop C base out maxc pick k (initState base)).visited ++ t := by
  simp only [crawl_website]
  have hg := crawlLoop_good C base out maxc pick (maxd + 1) (initState base)
    (initState_good C out base)
  obtain ⟨gv, gcl, gdis, gsav, gper⟩ := hg
  refine ⟨(gper.nodup_iff).mpr gv, gv, ?_, gper, ?_⟩
  · rw [gsav, saves_map_fst]
  · intro k
    rw [crawlLoop_add C base out maxc pick k 1 (initState base)]
    obtain ⟨tv, tf, ts, h1, h2, h3⟩ := crawlLoop_extend C base out maxc pick 1
      (crawlLoop C base out maxc pick k (initState base))
    exact ⟨tv, h1⟩

/-- C2: the level loop stops exactly when the frontier is empty or the depth
counter passes `maxDepth` (the final state has an empty frontier or depth
`maxDepth + 1`); depth rises by exactly one per completed level; every URL
present in the frontier at a level `k ≤ maxDepth` (depth-`maxDepth` pages
included) is fetched and saved by the crawl; and every fetched URL was in
the frontier of some level `k ≤ maxDepth`, so a URL first discovered at a
depth beyond `maxDepth` is never fetched. -/
theorem crawl_depth_bound (C : Collaborators) (base out : String) (maxd maxc : Nat)
    (pick : Nat → Nat → Nat) :
    ((crawl_website C base out maxd maxc pick).currentLevel = []
      ∨ (crawl_website C base out maxd maxc pick).depth = maxd + 1)
    ∧ (∀ st : CrawlState, (levelStep C base out maxc pick st).depth = st.depth + 1)
    ∧ (∀ k, k ≤ maxd →
        ∀ u ∈ (crawlLoop C base out maxc pick k (initState base)).currentLevel,
        u ∈ (crawl_website C base out maxd maxc pick).fetched
        ∧ u ∈ (crawl_website C base out maxd maxc pick).saves.map (fun e => e.1))
    ∧ ∀ u ∈ (crawl_website C base out maxd maxc pick).fetched,
        ∃ k, k ≤ maxd
          ∧ u ∈ (crawlLoop C base out maxc pick k (initState base)).currentLevel := by
  simp only [crawl_website]
  refine ⟨?_, fun st => rfl, ?_, ?_⟩
  · rcases crawlLoop_term C base out maxc pick (maxd + 1) (initState base) with h | h
    · exact Or.inl h
    · refine Or.inr ?_
      rw [h]
      exact Nat.zero_add (maxd + 1)
  · intro k hk u hu
    have hgk := crawlLoop_good C base out maxc pick k (initState base)
      (initState_good C out base)
    have hne : (crawlLoop C base out maxc pick k (initState base)).currentLevel ≠ [] := by
      intro e
      rw [e] at hu
      exact absurd hu (List.not_mem_nil u)
    have e1 : crawlLoop C base out maxc pick (k + 1) (initState base)
        = levelStep C base out maxc pick
          (crawlLoop C base out maxc pick k (initState base)) := by
      rw [crawlLoop_add C base out maxc pick k 1 (initState base)]
      simp only [crawlLoop, if_neg hne]
    have hufetch : u ∈ (crawlLoop C base out maxc pick (k + 1) (initState base)).fetched := by
      rw [e1]
      obtain ⟨tv, ts, h1, h2, h3⟩ := levelStep_extend C base out maxc pick
        (crawlLoop C base out maxc pick k (initState base))
      rw [h3]
      apply List.mem_append_right
      rw [List.mem_filter]
      refine ⟨hu, ?_⟩
      simpa using hgk.2.2.1 u hu
    have harith : (k + 1) + (maxd - k) = maxd + 1 := by omega
    have e2 : crawlLoop C base out maxc pick (maxd + 1) (initState base)
        = crawlLoop C base out maxc pick (maxd - k)
          (crawlLoop C base out maxc pick (k + 1) (initState base)) := by
      rw [← harith, crawlLoop_add]
    have hf : u ∈ (crawlLoop C base out maxc pick (maxd + 1) (initState base)).fetched := by
      rw [e2]
      obtain ⟨tv, tf, ts, h1, h2, h3⟩ := crawlLoop_extend C base out maxc pick (maxd - k)
        (crawlLoop C base out maxc pick (k + 1) (initState base))
      rw [h2]
      exact List.mem_append_left _ hufetch
    refine ⟨hf, ?_⟩
    have hgf := crawlLoop_good C base out maxc pick (maxd + 1) (initState base)
      (initState_good C out base)
    have hvis : u ∈ (crawlLoop C base out maxc pick (maxd + 1) (initState base)).visited :=
      (hgf.2.2.2.2.mem_iff).mp hf
    rw [hgf.2.2.2.1, saves_map_fst]
    exact hvis
  · intro u hu
    rcases crawlLoop_fetched_src C base out maxc pick (maxd + 1) (initState base) u hu
      with h | ⟨j, hj, hju⟩
    · exact absurd h (List.not_mem_nil u)
    · exact ⟨j, by omega, hju⟩

/-- C8: `filter_links` keeps exactly the links whose resolved host equals the
base URL's host, and consequently every URL in any crawl frontier is the
seed itself or has the seed's host. -/
theorem crawl_domain_filter (C : Collaborators) (base out : String) (maxc : Nat)
    (pick : Nat → Nat → Nat) :
    (∀ (links : List String) (b x : String), x ∈ filter_links links b →
      (urlparse x).netloc = (urlparse b).netloc)
    ∧ ∀ (k : Nat) (u : String),
        u ∈ (crawlLoop C base out maxc pick k (initState base)).currentLevel →
        u = base ∨ (urlparse u).netloc = (urlparse base).netloc := by
  constructor
  · intro links b x hx
    rw [filter_links_mem] at hx
    obtain ⟨lk, _, _, hd⟩ := hx
    exact hd
  · intro k u hu
    have hinit : FrontierOK C base (initState base) := by
      intro x hx
      left
      simpa [initState] using hx
    rcases crawlLoop_frontierOK C base out maxc pick k (initState base) hinit u hu
      with h | ⟨pg, lk, _, _, hd⟩
    · exact Or.inl h
    · exact Or.inr hd

/-- C10: every URL `filter_links` returns is `urljoin(base, h)` for some raw
href `h` of its input — the resolution base is the crawl's seed URL, not
the URL of the page the href was found on — and consequently every
non-seed frontier entry of any crawl equals `urljoin(seed, h)` for a raw
href `h` extracted from some page. -/
theorem crawl_resolves_against_seed (C : Collaborators) (base out : String)
    (maxc : Nat) (pick : Nat → Nat → Nat) :
    (∀ (links : List String) (b x : String), x ∈ filter_links links b →
      ∃ lk ∈ links, x = urljoin b lk)
    ∧ ∀ (k : Nat) (u : String),
        u ∈ (crawlLoop C base out maxc pick k (initState base)).currentLevel →
        u = base ∨ ∃ pg lk, lk ∈ pageLinks C pg ∧ u = urljoin base lk := by
  constructor
  · intro links b x hx
    rw [filter_links_mem] at hx
    obtain ⟨lk, hlk, he, _⟩ := hx
    exact ⟨lk, hlk, he⟩
  · intro k u hu
    have hinit : FrontierOK C base (initState base) := by
      intro x hx
      left
      simpa [initState] using hx
    rcases crawlLoop_frontierOK C base out maxc pick k (initState base) hinit u hu
      with h | ⟨pg, lk, hmem, he, _⟩
    · exact Or.inl h
    · exact Or.inr ⟨pg, lk, hmem, he⟩

theorem levelStep_setEq (C : Collaborators) (base out : String) (maxc : Nat)
    (pick1 pick2 : Nat → Nat → Nat) (st1 st2 : CrawlState)
    (h1 : GoodState C out st1) (h2 : GoodState C out st2)
    (hv : ∀ x, x ∈ st1.visited ↔ x ∈ st2.visited)
    (hc : ∀ x, x ∈ st1.currentLevel ↔ x ∈ st2.currentLevel) :
    (∀ x, x ∈ (levelStep C base out maxc pick1 st1).visited
        ↔ x ∈ (levelStep C base out maxc pick2 st2).visited)
    ∧ (∀ x, x ∈ (levelStep C base out maxc pick1 st1).currentLevel
        ↔ x ∈ (levelStep C base out maxc pick2 st2).currentLevel) := by
  obtain ⟨p1, hp1, e1v, e1s, e1n, _, _, _⟩ := levelStep_spec C base out maxc pick1 st1 h1
  obtain ⟨p2, hp2, e2v, e2s, e2n, _, _, _⟩ := levelStep_spec C base out maxc pick2 st2 h2
  have hputs : ∀ x, x ∈ p1 ↔ x ∈ p2 := by
    intro x
    rw [hp1.mem_iff, hp2.mem_iff]
    simp only [List.mem_filter, decide_eq_true_eq]
    rw [hv x, hc x]
  constructor
  · intro x
    rw [e1v, e2v]
    simp only [List.mem_append]
    rw [hv x, hputs x]
  · intro x
    rw [e1n x, e2n x]
    have hex : (∃ u ∈ p1, x ∈ filter_links (pageLinks C u) base)
        ↔ (∃ u ∈ p2, x ∈ filter_links (pageLinks C u) base) := by
      constructor
      · rintro ⟨u, hu, hx⟩
        exact ⟨u, (hputs u).mp hu, hx⟩
      · rintro ⟨u, hu, hx⟩
        exact ⟨u, (hputs u).mpr hu, hx⟩
    rw [hex, hv x, hc x]

theorem crawlLoop_setEq (C : Collaborators) (base out : String) (maxc : Nat)
    (pick1 pick2 : Nat → Nat → Nat) :
    ∀ (f : Nat) (st1 st2 : CrawlState), GoodState C out st1 → GoodState C out st2 →
    (∀ x, x ∈ st1.visited ↔ x ∈ st2.visited) →
    (∀ x, x ∈ st1.currentLevel ↔ x ∈ st2.currentLevel) →
    ∀ x, x ∈ (crawlLoop C base out maxc pick1 f st1).visited
      ↔ x ∈ (crawlLoop C base out maxc pick2 f st2).visited := by
  intro f
  induction f with
  | zero =>
    intro st1 st2 _ _ hv _ x
    exact hv x
  | succ f ih =>
    intro st1 st2 h1 h2 hv hc x
    by_cases hcl1 : st1.currentLevel = []
    · have hcl2 : st2.currentLevel = [] := by
        apply List.eq_nil_iff_forall_not_mem.mpr
        intro y hy
        exact (List.eq_nil_iff_forall_not_mem.mp hcl1) y ((hc y).mpr hy)
      simp only [crawlLoop, if_pos hcl1, if_pos hcl2]
      exact hv x
    · have hcl2 : st2.currentLevel ≠ [] := by
        intro e
        obtain ⟨y, hy⟩ := List.exists_mem_of_ne_nil st1.currentLevel hcl1
        exact (List.eq_nil_iff_forall_not_mem.mp e) y ((hc y).mp hy)
      simp only [crawlLoop, if_neg hcl1, if_neg hcl2]
      obtain ⟨hv2, hc2⟩ := levelStep_setEq C base out maxc pick1 pick2 st1 st2 h1 h2 hv hc
      exact ih (levelStep C base out maxc pick1 st1) (levelStep C base out maxc pick2 st2)
        (levelStep_good C base out maxc pick1 st1 h1)
        (levelStep_good C base out maxc pick2 st2 h2) hv2 hc2 x

/-- C9: two complete crawls with identical inputs and the same deterministic
collaborators, but arbitrary (different) per-level completion orders, emit
exactly the same set of save events — the same file paths with identical
contents — even though the order of the events may differ. -/
theorem crawl_idempotent_rerun (C : Collaborators) (base out : String)
    (maxd maxc : Nat) (pick1 pick2 : Nat → Nat → Nat) :
    ∀ e, e ∈ (crawl_website C base out maxd maxc pick1).saves
      ↔ e ∈ (crawl_website C base out maxd maxc pick2).saves := by
  intro e
  simp only [crawl_website]
  have hg1 := crawlLoop_good C base out maxc pick1 (maxd + 1) (initState base)
    (initState_good C out base)
  have hg2 := crawlLoop_good C base out maxc pick2 (maxd + 1) (initState base)
    (initState_good C out base)
  have hvis := crawlLoop_setEq C base out maxc pick1 pick2 (maxd + 1)
    (initState base) (initState base) (initState_good C out base)
    (initState_good C out base) (fun x => Iff.rfl) (fun x => Iff.rfl)
  rw [hg1.2.2.2.1, hg2.2.2.2.1]
  simp only [List.mem_map]
  constructor
  · rintro ⟨u, hu, rfl⟩
    exact ⟨u, (hvis u).mp hu, rfl⟩
  · rintro ⟨u, hu, rfl⟩
    exact ⟨u, (hvis u).mpr hu, rfl⟩
